import Mathlib

/-!
Verification of the goarfs AR-archive reader.

The development shallowly embeds the Go package `goarfs` (file `ar.go`, current
revision with extended-name support): the byte stream is a `List Char` (each
`Char` standing for one byte; all bytes relevant to the format are ASCII), Go
`int64` arithmetic is `Int` (with the one explicit two's-complement wrap the
source inherits from `io.NewSectionReader`), `uint32` casts are `% 2^32`, and
fallible operations return `Except Err` / pair an `Option Err` with their
result.  The mutable cursor of the underlying `io.ReadSeeker` is threaded
explicitly; the flag `pr` ("positional reads") records whether the underlying
source implements `io.ReaderAt` (true for `os.File`) or has `ReadAt` emulated
by seek-then-read, exactly as `arfsReader.ReadAt` does in the source.
-/

namespace Goarfs

/-- Largest value of a Go `int64`. -/
def maxI64 : Int := 9223372036854775807

/-- Two's-complement wrap-around of Go `int64` arithmetic. -/
def wrap64 (x : Int) : Int :=
  (x + 9223372036854775808) % 18446744073709551616 - 9223372036854775808

/-- Go `uint32(x)` conversion of an `int64` value. -/
def u32 (x : Int) : Nat := (x % 4294967296).toNat

/-- ASCII whitespace, as recognised by `strings.TrimSpace` on ASCII input. -/
def isSpaceB (c : Char) : Bool :=
  c = ' ' || c = '\t' || c = '\n' || c = '\x0b' || c = '\x0c' || c = '\r'

/-- Go `strings.TrimSpace` (ASCII fast path; header fields are ASCII). -/
def trimSpace (l : List Char) : List Char :=
  ((l.dropWhile isSpaceB).reverse.dropWhile isSpaceB).reverse

/-- Go `strings.TrimRight(s, "\x00")`: strip trailing NUL bytes. -/
def trimNulRight (l : List Char) : List Char :=
  (l.reverse.dropWhile (fun c => c = '\x00')).reverse

/-- Value of a digit character in base `b` (`b ≤ 10`, as used by the source). -/
def digitVal (b : Nat) (c : Char) : Option Nat :=
  if '0' ≤ c ∧ c ≤ '9' then
    let v := c.toNat - '0'.toNat
    if v < b then some v else none
  else none

/-- Accumulate the digits of a base-`b` numeral; `none` on empty or bad input. -/
def parseDigits (b : Nat) (l : List Char) : Option Nat :=
  if l = [] then none
  else l.foldl (fun acc c =>
    match acc, digitVal b c with
    | some a, some v => some (a * b + v)
    | _, _ => none) (some 0)

/-- Go `strconv.ParseInt(s, b, 32)`: optional sign, base-`b` digits, and the
`int32` range check (out-of-range input is an error the caller rejects). -/
def parseIntB (b : Nat) (l : List Char) : Option Int :=
  let sr : Bool × List Char :=
    match l with
    | '+' :: r => (false, r)
    | '-' :: r => (true, r)
    | r => (false, r)
  match parseDigits b sr.2 with
  | none => none
  | some m =>
    let v : Int := if sr.1 then -(m : Int) else (m : Int)
    if -2147483648 ≤ v ∧ v ≤ 2147483647 then some v else none

/-- Go `strings.TrimPrefix`: drop `p` from the front of `l` when it is there. -/
def dropStart (p l : List Char) : List Char :=
  if p.isPrefixOf l then l.drop p.length else l

/-! ### Path normalization (`path.Clean`)

The facade normalizes names with Go's `path.Clean` followed by two
`strings.TrimPrefix` calls.  `path.Clean` is embedded at the granularity of
path segments: split on `/`, drop empty and `.` segments, resolve `..`
lexically (popping non-`..` segments, kept at the front of a relative path,
discarded at the root of a rooted path), and reassemble. -/

/-- Split a character list on `/`, keeping empty segments (Go `strings.Split`). -/
def splitSegsAux : List Char → List Char → List (List Char)
  | [], acc => [acc.reverse]
  | c :: cs, acc =>
    if c = '/' then acc.reverse :: splitSegsAux cs []
    else splitSegsAux cs (c :: acc)

/-- Segments of a slash-separated path. -/
def splitSegs (l : List Char) : List (List Char) := splitSegsAux l []

/-- One step of `path.Clean`'s element processing. -/
def cleanStepF (rooted : Bool) (out : List (List Char)) (seg : List Char) :
    List (List Char) :=
  if seg = [] ∨ seg = ['.'] then out
  else if seg = ['.', '.'] then
    if out ≠ [] ∧ out.getLast? ≠ some ['.', '.'] then out.dropLast
    else if rooted then out
    else out ++ [seg]
  else out ++ [seg]

/-- Reassemble path segments with `/` separators. -/
def joinSegs : List (List Char) → List Char
  | [] => []
  | [s] => s
  | s :: rest => s ++ '/' :: joinSegs rest

/-- Go `path.Clean`, segment-level embedding. -/
def pathClean (l : List Char) : List Char :=
  if l = [] then ['.']
  else
    let rooted := l.head? = some '/'
    let out := (splitSegs l).foldl (cleanStepF rooted) []
    let r := (if rooted then ['/'] else []) ++ joinSegs out
    if r = [] then ['.'] else r

/-- Name normalization performed by `ARFS.getHeader`: `path.Clean`, then
`TrimPrefix "/"`, then `TrimPrefix "./"`. -/
def normalizeName (name : List Char) : List Char :=
  dropStart ['.', '/'] (dropStart ['/'] (pathClean name))

/-! ### Errors and the windowed reader -/

/-- Errors of the embedding.  `tooShort`, `badSignature`, `badFileHeader` are
the package's sentinel errors; `eof` is a surfaced raw `io.EOF`;
`negativeSeek` a seek to a negative absolute offset; `extNameBad` the
`strconv` failure on the digits of a `#1/N` name (returned unwrapped);
`extNameShort` the "insufficient data for extended filename" error;
`makePanic` marks the runtime panic of `make([]byte, N)` for negative `N`;
`notExist` is `fs.ErrNotExist`; `seekWhence`/`seekOffset` are
`io.SectionReader.Seek`'s errors; `outOfFuel` reports that the fuel given to
the loop embedding ran out (the Go loop has no such bound). -/
inductive Err where
  | tooShort
  | badSignature
  | badFileHeader
  | eof
  | negativeSeek
  | extNameBad
  | extNameShort
  | makePanic
  | notExist
  | seekWhence
  | seekOffset
  | outOfFuel
deriving DecidableEq, Inhabited

instance instDecEqExcept {ε α : Type} [DecidableEq ε] [DecidableEq α] :
    DecidableEq (Except ε α) := fun a b =>
  match a, b with
  | .error e, .error e' =>
    if h : e = e' then .isTrue (by rw [h]) else .isFalse (fun hh => h (by injection hh))
  | .ok v, .ok v' =>
    if h : v = v' then .isTrue (by rw [h]) else .isFalse (fun hh => h (by injection hh))
  | .error _, .ok _ => .isFalse (fun hh => by injection hh)
  | .ok _, .error _ => .isFalse (fun hh => by injection hh)

/-- State of an `io.SectionReader` (fields `base`, `off`, `limit`). -/
structure SectionReader where
  base : Int
  off : Int
  limit : Int
deriving DecidableEq, Inhabited

/-- Go `io.NewSectionReader(r, off, n)`, including its `int64` overflow guard,
whose subtraction `maxint64 - n` wraps for negative `n`. -/
def NewSectionReader (off n : Int) : SectionReader :=
  let remaining := if off ≤ wrap64 (maxI64 - n) then wrap64 (n + off) else maxI64
  { base := off, off := off, limit := remaining }

/-- Go `arfsReader.ReadAt(p, off)` with `k = len(p)`, together with its effect
on the shared stream cursor `cur`.  With `pr = true` the underlying source is
an `io.ReaderAt` (positional read, error `io.EOF` on a short read, cursor
untouched); with `pr = false` the read is emulated by `Seek` + `Read`
(`io.EOF` only when nothing was read, cursor moved to the end of the read). -/
def arfsReadAtSt (pr : Bool) (s : List Char) (cur off : Int) (k : Nat) :
    (List Char × Option Err) × Int :=
  if off < 0 then (([], some .negativeSeek), cur)
  else
    let bytes := (s.drop off.toNat).take k
    let err : Option Err :=
      cond pr (if bytes.length < k then some .eof else none)
        (if bytes.length = 0 ∧ 0 < k then some .eof else none)
    ((bytes, err), cond pr cur (off + bytes.length))

/-- Go `io.SectionReader.Read(p)` with `k = len(p)`. -/
def srRead (pr : Bool) (s : List Char) (cur : Int) (sr : SectionReader) (k : Nat) :
    (List Char × Option Err) × SectionReader × Int :=
  if sr.limit ≤ sr.off then (([], some .eof), sr, cur)
  else
    let kk := min k (sr.limit - sr.off).toNat
    let r := arfsReadAtSt pr s cur sr.off kk
    (r.1, { sr with off := sr.off + r.1.1.length }, r.2)

/-- Go `io.SectionReader.ReadAt(p, off)` with `k = len(p)` (stateless). -/
def srReadAt (pr : Bool) (s : List Char) (cur : Int) (sr : SectionReader)
    (k : Nat) (off : Int) : (List Char × Option Err) × Int :=
  if off < 0 ∨ sr.limit - sr.base ≤ off then (([], some .eof), cur)
  else
    let off2 := off + sr.base
    let mx := sr.limit - off2
    if (k : Int) > mx then
      let r := arfsReadAtSt pr s cur off2 mx.toNat
      ((r.1.1, if r.1.2 = none then some .eof else r.1.2), r.2)
    else
      let r := arfsReadAtSt pr s cur off2 k
      (r.1, r.2)

/-- Go `io.SectionReader.Seek` (whence 0 = start, 1 = current, 2 = end). -/
def srSeek (sr : SectionReader) (offset : Int) (whence : Nat) :
    Except Err (Int × SectionReader) :=
  match whence with
  | 0 =>
    let o := offset + sr.base
    if o < sr.base then .error .seekOffset else .ok (o - sr.base, { sr with off := o })
  | 1 =>
    let o := offset + sr.off
    if o < sr.base then .error .seekOffset else .ok (o - sr.base, { sr with off := o })
  | 2 =>
    let o := offset + sr.limit
    if o < sr.base then .error .seekOffset else .ok (o - sr.base, { sr with off := o })
  | _ => .error .seekWhence

/-! ### Header codec and the parse scan -/

/-- The 8-byte archive signature `"!<arch>\n"`. -/
def goodSignature : List Char := ['!', '<', 'a', 'r', 'c', 'h', '>', '\n']

/-- The 2-byte header terminator `{0x60, 0x0A}`. -/
def headerTerminator : List Char := ['\x60', '\n']

/-- Decoded fields of one 60-byte member header, before extended-name
resolution and before the `uint32` casts of the entry constructor. -/
structure RawHeader where
  name : List Char
  mod : Int
  owner : Int
  group : Int
  mode : Int
  size : Int
deriving DecidableEq, Inhabited

/-- Decode one 60-byte header: six whitespace-trimmed fields at fixed offsets
and the terminator check, failing with `badFileHeader` exactly as `parse`
does (every `strconv` failure is wrapped into `ErrBadFileHeader`). -/
def decodeHeader (h : List Char) : Except Err RawHeader :=
  let seg := fun (a b : Nat) => (h.drop a).take (b - a)
  if seg 58 60 ≠ headerTerminator then .error .badFileHeader
  else
    match parseIntB 10 (trimSpace (seg 16 28)), parseIntB 10 (trimSpace (seg 28 34)),
        parseIntB 10 (trimSpace (seg 34 40)), parseIntB 8 (trimSpace (seg 40 48)),
        parseIntB 10 (trimSpace (seg 48 58)) with
    | some m, some o, some g, some md, some sz =>
      .ok { name := trimSpace (seg 0 16), mod := m, owner := o, group := g,
            mode := md, size := sz }
    | _, _, _, _, _ => .error .badFileHeader

/-- One entry of the archive's table (`fileHeader` in the source).  The
embedded `sr` is the `*io.SectionReader` the entry owns; `offset` is the
field of the same name (the data offset as captured before extended-name
adjustment, which the source never adjusts nor reads back). -/
structure fileHeader where
  name : List Char
  modification : Int
  owner : Nat
  group : Nat
  mode : Nat
  size : Nat
  offset : Int
  sr : SectionReader
deriving DecidableEq, Inhabited

/-- The name-keyed entry table (`map[string]*fileHeader`). -/
abbrev Table := List (List Char × fileHeader)

/-- Map assignment `a.fileHeaders[k] = v`: last write wins. -/
def insertEntry (k : List Char) (v : fileHeader) (t : Table) : Table :=
  t.filter (fun p => p.1 ≠ k) ++ [(k, v)]

/-- Map lookup `a.fileHeaders[k]`. -/
def lookupEntry (t : Table) (k : List Char) : Option fileHeader :=
  match t.find? (fun p => p.1 = k) with
  | some p => some p.2
  | none => none

/-- Result of one loop iteration of `parse`: the key inserted into the table,
the entry, and the cursor position at which the next header is read. -/
structure StepOut where
  key : List Char
  fh : fileHeader
  next : Int
deriving DecidableEq, Inhabited

/-- Go `Seek(delta, io.SeekCurrent)` on the underlying source: fails on a
negative resulting absolute offset, otherwise just moves the cursor (seeking
past the end is allowed). -/
def goSeekRel (cur delta : Int) : Except Err Int :=
  if cur + delta < 0 then .error .negativeSeek else .ok (cur + delta)

/-- One iteration of `parse`'s scan loop, reading the 60-byte header at
cursor position `pos`: `ok none` is the end-of-stream exit, `ok (some o)` a
parsed member.  Mirrors the source line by line: decode, compute
`nextPos = size + size&1` from the declared size, capture `offset`, create
the section reader, resolve a `#1/N` extended name (reading `N` bytes through
the section reader, which in the seek-emulated mode moves the shared cursor),
and finally `Seek(nextPos, io.SeekCurrent)`.  `make([]byte, N)` with negative
`N` panics in Go; the embedding returns the marker error `makePanic` there. -/
def step (pr : Bool) (s : List Char) (pos : Int) : Except Err (Option StepOut) :=
  let hdr := (s.drop pos.toNat).take 60
  if hdr.length = 0 then .ok none
  else if hdr.length ≠ 60 then .error .tooShort
  else
    match decodeHeader hdr with
    | .error e => .error e
    | .ok h =>
      let nextPos := h.size + h.size % 2
      let offset := pos + 60
      let sr0 := NewSectionReader offset h.size
      if ['#', '1', '/'].isPrefixOf h.name then
        match parseIntB 10 (h.name.drop 3) with
        | none => .error .extNameBad
        | some len =>
          if len < 0 then .error .makePanic
          else
            let r := srRead pr s (pos + 60) sr0 len.toNat
            let nameBytes := r.1.1
            match r.1.2 with
            | some e => .error e
            | none =>
              if (nameBytes.length : Int) ≠ len then .error .extNameShort
              else
                let fname := trimNulRight nameBytes
                match goSeekRel r.2.2 nextPos with
                | .error e => .error e
                | .ok nx =>
                  .ok (some { key := fname
                              fh := { name := fname, modification := h.mod,
                                      owner := u32 h.owner, group := u32 h.group,
                                      mode := u32 h.mode, size := u32 (h.size - len),
                                      offset := offset,
                                      sr := NewSectionReader (offset + len) (h.size - len) }
                              next := nx })
      else
        match goSeekRel (pos + 60) nextPos with
        | .error e => .error e
        | .ok nx =>
          .ok (some { key := h.name
                      fh := { name := h.name, modification := h.mod,
                              owner := u32 h.owner, group := u32 h.group,
                              mode := u32 h.mode, size := u32 h.size,
                              offset := offset, sr := sr0 }
                      next := nx })

/-- The scan loop of `parse`, driven by `step`.  The Go loop carries no fuel;
`outOfFuel` marks exhaustion of the embedding's bound (callers pass enough
fuel for every terminating run). -/
def parseLoop (pr : Bool) (s : List Char) : Nat → Table → Int → Except Err Table
  | 0, _, _ => .error .outOfFuel
  | fuel + 1, t, pos =>
    match step pr s pos with
    | .error e => .error e
    | .ok none => .ok t
    | .ok (some o) => parseLoop pr s fuel (insertEntry o.key o.fh t) o.next

/-- `ARFS.parse` with an explicit fuel bound: seek to the start, read and
check the 8-byte signature (a zero-byte read surfaces the raw `io.EOF`, a
partial read is `tooShort`), then scan headers from position 8. -/
def parseWith (fuel : Nat) (pr : Bool) (s : List Char) : Except Err Table :=
  let sig := s.take 8
  if sig.length = 0 then .error .eof
  else if sig.length ≠ 8 then .error .tooShort
  else if sig ≠ goodSignature then .error .badSignature
  else parseLoop pr s fuel [] 8

/-- `ARFS.parse`: the default fuel `s.length + 2` is sufficient for every
input on which the Go loop terminates moving forward. -/
def parse (pr : Bool) (s : List Char) : Except Err Table :=
  parseWith (s.length + 2) pr s

/-- The archive value: the borrowed stream, the positional-read capability of
the source, and the entry table. -/
structure ARFS where
  stream : List Char
  posReads : Bool
  fileHeaders : Table
deriving DecidableEq, Inhabited

/-- `FromInterface`: construct an archive from a seekable source; any parse
error aborts construction and no archive value exists. -/
def FromInterface (pr : Bool) (s : List Char) : Except Err ARFS :=
  match parse pr s with
  | .error e => .error e
  | .ok t => .ok { stream := s, posReads := pr, fileHeaders := t }

/-! ### The filesystem facade

Go's `Open` hands out the `*fileHeader` pointer stored in the table, so every
handle to a member aliases the one `io.SectionReader` held by the entry.  The
embedding renders this by keeping the reader state inside the table and
routing handle reads through the archive value, which is threaded
state-passing style. -/

/-- `ARFS.getHeader`: normalize the name, then look it up. -/
def getHeader (a : ARFS) (name : List Char) : Option fileHeader :=
  lookupEntry a.fileHeaders (normalizeName name)

/-- `ARFS.Open`: the found entry (shared, see `handleRead`) or `fs.ErrNotExist`. -/
def ARFS.Open (a : ARFS) (name : List Char) : Except Err fileHeader :=
  match getHeader a name with
  | none => .error .notExist
  | some fh => .ok fh

/-- `ARFS.Stat`: the entry's metadata or `fs.ErrNotExist`. -/
def ARFS.Stat (a : ARFS) (name : List Char) : Except Err fileHeader :=
  match getHeader a name with
  | none => .error .notExist
  | some fh => .ok fh

/-- `fileHeader.Size()`: `int64(fh.size)`. -/
def fileHeader.Size (fh : fileHeader) : Int := (fh.size : Int)

/-- Replace the section-reader state of the entry stored under key `k`. -/
def updateSr (t : Table) (k : List Char) (sr : SectionReader) : Table :=
  t.map (fun p => if p.1 = k then (p.1, { p.2 with sr := sr }) else p)

/-- `fileHeader.Read` performed through a handle obtained from `Open name`:
it reads via the section reader stored in the table — the state shared by
every handle to that member — and stores the advanced reader back. -/
def handleRead (a : ARFS) (name : List Char) (k : Nat) :
    (List Char × Option Err) × ARFS :=
  match getHeader a name with
  | none => (([], some .notExist), a)
  | some fh =>
    let r := srRead a.posReads a.stream 0 fh.sr k
    (r.1, { a with fileHeaders := updateSr a.fileHeaders (normalizeName name) r.2.1 })

/-- The loop of `io.ReadAll`: read a chunk, append it (also on error), stop
on any error, translating `io.EOF` into success.  Chunk size 512 is the
initial buffer of `io.ReadAll`; the collected result does not depend on the
chunking.  The fuel is an artifact of the embedding; `readAllFuel` always
suffices because every errorless chunk is nonempty. -/
def readAllLoop (pr : Bool) (s : List Char) :
    Nat → SectionReader → List Char → (List Char × Option Err) × SectionReader
  | 0, sr, acc => ((acc, some .outOfFuel), sr)
  | fuel + 1, sr, acc =>
    let r := srRead pr s 0 sr 512
    match r.1.2 with
    | some e => ((acc ++ r.1.1, if e = .eof then none else some e), r.2.1)
    | none => readAllLoop pr s fuel r.2.1 (acc ++ r.1.1)

/-- Sufficient fuel to drain a section reader. -/
def readAllFuel (sr : SectionReader) : Nat := (sr.limit - sr.off).toNat + 2

/-- `ARFS.ReadFile`: `Open` followed by `io.ReadAll` on the returned handle —
which drains (and leaves drained) the member's shared section reader. -/
def ARFS.ReadFile (a : ARFS) (name : List Char) :
    Except Err (List Char) × ARFS :=
  match getHeader a name with
  | none => (.error .notExist, a)
  | some fh =>
    let r := readAllLoop a.posReads a.stream (readAllFuel fh.sr) fh.sr []
    let a' := { a with fileHeaders := updateSr a.fileHeaders (normalizeName name) r.2 }
    match r.1.2 with
    | some e => (.error e, a')
    | none => (.ok r.1.1, a')

/-! ### Helpers for concrete inputs -/

/-- Whether an `Except` is a success. -/
def isOkE {α : Type} : Except Err α → Bool
  | .ok _ => true
  | .error _ => false

/-- Extract the member of a successful, non-terminal `step` result. -/
def stepOutOf (r : Except Err (Option StepOut)) : StepOut :=
  match r with
  | .ok (some o) => o
  | _ => default

/-- Left-justify a header field to `n` bytes with space padding. -/
def padField (n : Nat) (v : List Char) : List Char :=
  v ++ List.replicate (n - v.length) ' '

/-- Assemble one 60-byte member header from its six ASCII fields. -/
def mkHeader (name mt ow gr md sz : List Char) : List Char :=
  padField 16 name ++ padField 12 mt ++ padField 6 ow ++ padField 6 gr ++
    padField 8 md ++ padField 10 sz ++ headerTerminator

/-- Archive whose final member declares size 10 but is followed by only 3
bytes of data. -/
def archC10 : List Char :=
  goodSignature ++ mkHeader ['a'] ['0'] ['0'] ['0'] ['0'] ['1', '0'] ++ "abc".data

/-- Archive with one member `ab` of content `hi`. -/
def archC6 : List Char :=
  goodSignature ++ mkHeader "ab".data ['0'] ['0'] ['0'] ['0'] ['2'] ++ "hi".data

/-- Archive with one member whose name field is all spaces, so the decoded
member name is the empty string. -/
def archC8 : List Char :=
  goodSignature ++ mkHeader [] ['0'] ['0'] ['0'] ['0'] ['3'] ++ "abc".data ++ ['\n']

/-- Archive with one extended-name member `#1/5` of declared size 8: 5 name
bytes `hello` followed by 3 content bytes. -/
def archExt : List Char :=
  goodSignature ++ mkHeader "#1/5".data ['0'] ['0'] ['0'] ['0'] ['8'] ++
    "hello".data ++ "xyz".data

/-- Archive with one member whose size field is `-60`: `nextPos` is `-60`, so
the scan seeks back to the very header it just read. -/
def archC9 : List Char :=
  goodSignature ++ mkHeader ['x'] ['0'] ['0'] ['0'] ['0'] "-60".data

/-- Archive whose only header carries a corrupted terminator (`QQ` instead
of `{0x60, 0x0A}`). -/
def archC5bad : List Char :=
  goodSignature ++ padField 16 ['x'] ++ padField 12 ['0'] ++ padField 6 ['0'] ++
    padField 6 ['0'] ++ padField 8 ['0'] ++ padField 10 ['3'] ++ ['Q', 'Q'] ++ "abc".data

/-- The parse scan never returns, whatever fuel the embedding grants it. -/
def parseNeverReturns (pr : Bool) (s : List Char) : Prop :=
  ∀ fuel, parseWith fuel pr s = .error .outOfFuel

/-! ### Claims -/

/-- C10: construction does not validate that a member's declared data exists:
on `archC10`, whose only member declares size 10 with just 3 bytes present,
construction succeeds, `Stat` reports the full declared size 10, and
`ReadFile` returns the 3 available bytes with no error. -/
theorem c10_no_size_validation :
    (FromInterface true archC10).toOption.map
      (fun a => ((a.Stat ['a']).toOption.map fileHeader.Size,
                 (a.ReadFile ['a']).1.toOption)) =
    some (some 10, some "abc".data) := by decide

/-- C6 (code bug): handles obtained by separate `Open` calls are NOT
independently positioned.  On `archC6`, reading member `ab` (content `hi`)
through one handle and then reading through a second handle returns the empty
list instead of `hi`: both handles alias the entry's one `SectionReader`. -/
theorem c6_shared_cursor :
    (FromInterface true archC6).toOption.map
      (fun a =>
        ((handleRead a "ab".data 2).1.1,
         (handleRead (handleRead a "ab".data 2).2 "ab".data 2).1.1)) =
    some ("hi".data, []) := by decide

/-- C8 counterexample: the member named `""` (an all-space name field) is in
the table of `archC8`, yet `Open ""` and `Open "./"` fail with `NotExist`
while `Open "/"` finds it — `open("/x")`, `open("./x")`, `open("x")` do not
all resolve to the same entry for every member `x`. -/
theorem c8_counterexample :
    (FromInterface true archC8).toOption.map
      (fun a => ((lookupEntry a.fileHeaders []).isSome,
                 isOkE (a.Open []), isOkE (a.Open ['/']), isOkE (a.Open ['.', '/']))) =
    some (true, false, true, false) := by decide

/-- C2 counterexample: with a seek-emulated source (`pr = false`, the
`FromInterface` path for an `io.ReadSeeker` that is not an `io.ReaderAt`),
the member `#1/5` of `archExt` with declared size 8 leaves the cursor at
`8 + 60 + 5 + 8 = 81`, not at the claimed
`8 + 60 + (8 + 8 % 2) = 76`: resolving the extended name moves the shared
cursor by the name length. -/
theorem c2_counterexample :
    (decodeHeader ((archExt.drop 8).take 60)).toOption.map RawHeader.size = some 8
    ∧ step false archExt 8 = .ok (some (stepOutOf (step false archExt 8)))
    ∧ (stepOutOf (step false archExt 8)).next = 81
    ∧ (81 : Int) ≠ 8 + 60 + (8 + (8 : Int) % 2) := by
  refine ⟨by decide, rfl, by decide, by decide⟩

/-- C9 counterexample: on `archC9` the scan never terminates: the member's
size field `-60` makes `nextPos = -60`, so `Seek(-60, io.SeekCurrent)` puts
the cursor back at the same header forever. -/
theorem c9_counterexample : parseNeverReturns true archC9 := by
  intro fuel
  obtain ⟨o, ho, hn⟩ :
      ∃ o, step true archC9 8 = .ok (some o) ∧ o.next = 8 := ⟨_, rfl, by decide⟩
  have hloop : ∀ f : Nat, ∀ t : Table, parseLoop true archC9 f t 8 = .error .outOfFuel := by
    intro f
    induction f with
    | zero => intro t; rfl
    | succ n ih =>
      intro t
      simp only [parseLoop, ho, hn]
      exact ih _
  have hpw : parseWith fuel true archC9 = parseLoop true archC9 fuel [] 8 := rfl
  rw [hpw]
  exact hloop _ []

/-- Decode failures are always `badFileHeader`. -/
theorem decodeHeader_error_eq {h : List Char} {e : Err}
    (hd : decodeHeader h = .error e) : e = .badFileHeader := by
  simp only [decodeHeader] at hd
  split at hd
  · injection hd with h1; exact h1.symm
  · split at hd
    · exact absurd hd (by simp)
    · injection hd with h1; exact h1.symm

/-- With a positional-read source the shared cursor is untouched by
`SectionReader` reads. -/
theorem srRead_cursor_true (s : List Char) (cur : Int) (sr : SectionReader) (k : Nat) :
    (srRead true s cur sr k).2.2 = cur := by
  simp only [srRead, arfsReadAtSt]
  split
  · rfl
  · split <;> rfl

/-- The cursor after a `SectionReader` read is either unchanged or sits at
the end of the bytes read (seek-emulation). -/
theorem srRead_cursor_cases (pr : Bool) (s : List Char) (cur : Int)
    (sr : SectionReader) (k : Nat) :
    (srRead pr s cur sr k).2.2 = cur ∨
    (srRead pr s cur sr k).2.2 = sr.off + ((srRead pr s cur sr k).1.1).length := by
  simp only [srRead, arfsReadAtSt]
  split
  · left; rfl
  · split
    · left; rfl
    · rcases pr with _ | _
      · right; simp
      · left; simp

/-- Characterization of a successful `step`'s next cursor position: the
declared size rounded up to even, plus a nonnegative seek-emulation drift
that is zero for positional-read sources and for plain (non-extended)
names. -/
theorem step_next_eq (pr : Bool) (s : List Char) (pos : Int) (o : StepOut) (h : RawHeader)
    (hstep : step pr s pos = .ok (some o))
    (hdec : decodeHeader ((s.drop pos.toNat).take 60) = .ok h) :
    ∃ extra : Int, 0 ≤ extra ∧
      o.next = pos + 60 + extra + (h.size + h.size % 2) ∧
      (pr = true → extra = 0) ∧
      (¬(['#', '1', '/'].isPrefixOf h.name = true) → extra = 0) := by
  simp only [step] at hstep
  split at hstep
  · exact absurd hstep (by simp)
  split at hstep
  · exact absurd hstep (by simp)
  split at hstep
  · rename_i e heq
    rw [hdec] at heq
    exact absurd heq (by simp)
  rename_i h' heq
  rw [hdec] at heq
  injection heq with heq
  subst heq
  split at hstep
  · -- extended-name branch
    rename_i hpre
    split at hstep
    · exact absurd hstep (by simp)
    rename_i len hlen
    split at hstep
    · exact absurd hstep (by simp)
    rename_i hneg
    split at hstep
    · exact absurd hstep (by simp)
    rename_i herr
    split at hstep
    · exact absurd hstep (by simp)
    rename_i hlen2
    split at hstep
    · exact absurd hstep (by simp)
    rename_i nx hseek
    simp only [Except.ok.injEq, Option.some.injEq] at hstep
    subst hstep
    simp only [goSeekRel] at hseek
    split at hseek
    · exact absurd hseek (by simp)
    injection hseek with hseek
    refine ⟨(srRead pr s (pos + 60) (NewSectionReader (pos + 60) h.size) len.toNat).2.2 -
      (pos + 60), ?_, ?_, ?_, ?_⟩
    · -- the emulated cursor never moves backwards past the data offset
      rcases srRead_cursor_cases pr s (pos + 60)
          (NewSectionReader (pos + 60) h.size) len.toNat with hc | hc
      · omega
      · have hoff : (NewSectionReader (pos + 60) h.size).off = pos + 60 := rfl
        rw [hoff] at hc
        omega
    · simp only [StepOut.next]
      omega
    · intro hp; subst hp; rw [srRead_cursor_true]; omega
    · intro hnp; exact absurd hpre hnp
  · -- plain-name branch
    rename_i hpre
    split at hstep
    · exact absurd hstep (by simp)
    rename_i nx hseek
    simp only [Except.ok.injEq, Option.some.injEq] at hstep
    subst hstep
    simp only [goSeekRel] at hseek
    split at hseek
    · exact absurd hseek (by simp)
    injection hseek with hseek
    exact ⟨0, le_refl 0, by simp only [StepOut.next]; omega, fun _ => rfl, fun _ => rfl⟩

/-- C2 (amended): with a positional-read source (`io.ReaderAt`, as with
`FromFile`), every parsed member advances the cursor from the position after
its header by the declared (pre-extended-name-adjustment) size rounded up to
the next even count, so consecutive headers stay even-aligned relative to the
stream start (the scan starts at the even offset 8). -/
theorem c2_declared_size_advance (s : List Char) (pos : Int) (o : StepOut) (h : RawHeader)
    (hstep : step true s pos = .ok (some o))
    (hdec : decodeHeader ((s.drop pos.toNat).take 60) = .ok h) :
    o.next = pos + 60 + (h.size + h.size % 2) ∧
    (pos % 2 = 0 → o.next % 2 = 0) := by
  obtain ⟨extra, _, hnext, hzero, _⟩ := step_next_eq true s pos o h hstep hdec
  have he : extra = 0 := hzero rfl
  subst he
  constructor
  · omega
  · intro hp; omega

/-- Extract the value of a successful `decodeHeader`. -/
def rawHeaderOf (r : Except Err RawHeader) : RawHeader :=
  match r with
  | .ok h => h
  | .error _ => default

/-- Witness: `c2_declared_size_advance` at the extended-name archive
`archExt` read with a positional source. -/
theorem c2_declared_size_advance_witness :
    (stepOutOf (step true archExt 8)).next = 8 + 60 + (8 + (8 : Int) % 2) ∧
    ((8 : Int) % 2 = 0 → (stepOutOf (step true archExt 8)).next % 2 = 0) := by
  have hh := c2_declared_size_advance archExt 8 (stepOutOf (step true archExt 8))
    (rawHeaderOf (decodeHeader ((archExt.drop (8 : Int).toNat).take 60))) rfl rfl
  have hsz : (rawHeaderOf (decodeHeader ((archExt.drop (8 : Int).toNat).take 60))).size = 8 := by
    decide
  rw [hsz] at hh
  exact hh

/-- Values accepted by the embedded `strconv.ParseInt(_, _, 32)` lie in the
`int32` range. -/
theorem parseIntB_le {b : Nat} {l : List Char} {v : Int} (h : parseIntB b l = some v) :
    -2147483648 ≤ v ∧ v ≤ 2147483647 := by
  simp only [parseIntB] at h
  split at h
  · exact absurd h (by simp)
  · split at h
    all_goals
      split at h
      · rename_i hcond
        injection h with h
        subst h
        exact hcond
      · exact absurd h (by simp)

/-- All numeric fields produced by `decodeHeader` are in the `int32` range. -/
theorem decodeHeader_size_bounds {l : List Char} {h : RawHeader}
    (hd : decodeHeader l = .ok h) :
    -2147483648 ≤ h.size ∧ h.size ≤ 2147483647 := by
  simp only [decodeHeader] at hd
  split at hd
  · exact absurd hd (by simp)
  · split at hd
    · injection hd with hd
      subst hd
      exact parseIntB_le (by assumption)
    · exact absurd hd (by simp)

/-- `wrap64` is the identity on the `int64` range. -/
theorem wrap64_id {x : Int} (h1 : -9223372036854775808 ≤ x)
    (h2 : x ≤ 9223372036854775807) : wrap64 x = x := by
  unfold wrap64
  omega

/-- The `uint32` cast is the identity on `[0, 2^32)`. -/
theorem u32_int {x : Int} (h1 : 0 ≤ x) (h2 : x < 4294967296) : (u32 x : Int) = x := by
  unfold u32
  omega

/-- The bytes produced by a `SectionReader` read: the stream slice starting
at the reader's position, clipped to the request and to the window. -/
theorem srRead_bytes (pr : Bool) (s : List Char) (cur : Int) (sr : SectionReader)
    (k : Nat) (hoff : 0 ≤ sr.off) :
    (srRead pr s cur sr k).1.1 =
      (s.drop sr.off.toNat).take (min k (sr.limit - sr.off).toNat) := by
  simp only [srRead]
  split
  · rename_i hle
    have : (sr.limit - sr.off).toNat = 0 := by omega
    simp [this]
  · simp only [arfsReadAtSt]
    rw [if_neg (by omega)]

/-- C1: extended-name resolution.  For a member whose decoded header name has
the form `#1/N`, the successfully inserted entry carries as key and name the
first `N` bytes of the data region with trailing NULs stripped (never the
raw placeholder), its size is the declared size minus `N`, and its section
reader starts at the original data offset plus `N` and spans exactly the
remaining bytes.  The header's declared size is assumed nonnegative and the
offsets far from `int64` overflow, as in any well-formed archive. -/
theorem c1_extended_name_resolution (pr : Bool) (s : List Char) (pos : Int)
    (o : StepOut) (h : RawHeader) (len : Int)
    (hstep : step pr s pos = .ok (some o))
    (hdec : decodeHeader ((s.drop pos.toNat).take 60) = .ok h)
    (hpre : ['#', '1', '/'].isPrefixOf h.name = true)
    (hlen : parseIntB 10 (h.name.drop 3) = some len)
    (hsz : 0 ≤ h.size)
    (hpos : 0 ≤ pos)
    (hov : pos + 60 + h.size ≤ maxI64) :
    o.key = trimNulRight ((s.drop (pos + 60).toNat).take len.toNat)
    ∧ o.fh.name = o.key
    ∧ 0 ≤ len ∧ len ≤ h.size
    ∧ (o.fh.size : Int) = h.size - len
    ∧ o.fh.sr.base = pos + 60 + len
    ∧ o.fh.sr.off = o.fh.sr.base
    ∧ o.fh.sr.limit = o.fh.sr.base + (h.size - len)
    ∧ o.fh.offset = pos + 60 := by
  have hszb := decodeHeader_size_bounds hdec
  have hlim : (NewSectionReader (pos + 60) h.size).limit = pos + 60 + h.size := by
    simp only [NewSectionReader]
    rw [wrap64_id (x := maxI64 - h.size) (by unfold maxI64 at *; omega)
        (by unfold maxI64 at *; omega)]
    rw [if_pos (by omega)]
    rw [wrap64_id (by unfold maxI64 at *; omega) (by unfold maxI64 at *; omega)]
    omega
  have hoff : (NewSectionReader (pos + 60) h.size).off = pos + 60 := rfl
  simp only [step] at hstep
  split at hstep
  · exact absurd hstep (by simp)
  split at hstep
  · exact absurd hstep (by simp)
  split at hstep
  · rename_i e heq
    rw [hdec] at heq
    exact absurd heq (by simp)
  rename_i h' heq
  rw [hdec] at heq
  injection heq with heq
  subst heq
  rw [if_pos hpre] at hstep
  split at hstep
  · rename_i heq2
    rw [hlen] at heq2
    exact absurd heq2 (by simp)
  rename_i len' heq2
  rw [hlen] at heq2
  injection heq2 with heq2
  subst heq2
  split at hstep
  · exact absurd hstep (by simp)
  rename_i hneg
  split at hstep
  · exact absurd hstep (by simp)
  rename_i herr
  split at hstep
  · exact absurd hstep (by simp)
  rename_i hlen2
  split at hstep
  · exact absurd hstep (by simp)
  rename_i nx hseek
  simp only [Except.ok.injEq, Option.some.injEq] at hstep
  subst hstep
  -- the window is nonempty on the success path, so the read was a real one
  have hnz : ¬ (NewSectionReader (pos + 60) h.size).limit ≤
      (NewSectionReader (pos + 60) h.size).off := by
    intro hle
    rw [srRead] at herr
    rw [if_pos hle] at herr
    exact absurd herr (by simp)
  have hbytes := srRead_bytes pr s (pos + 60) (NewSectionReader (pos + 60) h.size)
    len.toNat (by rw [hoff]; omega)
  rw [hoff, hlim] at hbytes
  have hkk : (pos + 60 + h.size - (pos + 60)).toNat = h.size.toNat := by omega
  rw [hkk] at hbytes
  push_neg at hlen2
  have hnn : 0 ≤ len := by omega
  have hlenlen := List.length_take (min len.toNat h.size.toNat)
    (s.drop (pos + 60).toNat)
  rw [← hbytes] at hlenlen
  have hmin : min len.toNat h.size.toNat = len.toNat := by omega
  rw [hmin] at hbytes
  have hls : len ≤ h.size := by omega
  have hlim2 : (NewSectionReader (pos + 60 + len) (h.size - len)).limit =
      pos + 60 + len + (h.size - len) := by
    simp only [NewSectionReader]
    rw [wrap64_id (x := maxI64 - (h.size - len)) (by unfold maxI64 at *; omega)
        (by unfold maxI64 at *; omega)]
    rw [if_pos (by omega)]
    rw [wrap64_id (by unfold maxI64 at *; omega) (by unfold maxI64 at *; omega)]
    omega
  refine ⟨by rw [← hbytes], rfl, hnn, hls, ?_, rfl, rfl, ?_, rfl⟩
  · exact u32_int (by omega) (by omega)
  · exact hlim2

/-- Witness: `c1_extended_name_resolution` at `archExt`, whose member `#1/5`
of declared size 8 resolves to name `hello`, size 3, data offset 73. -/
theorem c1_extended_name_resolution_witness :
    (stepOutOf (step true archExt 8)).key =
      trimNulRight ((archExt.drop ((8 : Int) + 60).toNat).take (5 : Int).toNat)
    ∧ (stepOutOf (step true archExt 8)).fh.name = (stepOutOf (step true archExt 8)).key
    ∧ (0 : Int) ≤ 5
    ∧ (5 : Int) ≤ (rawHeaderOf (decodeHeader ((archExt.drop (8 : Int).toNat).take 60))).size
    ∧ ((stepOutOf (step true archExt 8)).fh.size : Int) =
        (rawHeaderOf (decodeHeader ((archExt.drop (8 : Int).toNat).take 60))).size - 5
    ∧ (stepOutOf (step true archExt 8)).fh.sr.base = (8 : Int) + 60 + 5
    ∧ (stepOutOf (step true archExt 8)).fh.sr.off = (stepOutOf (step true archExt 8)).fh.sr.base
    ∧ (stepOutOf (step true archExt 8)).fh.sr.limit =
        (stepOutOf (step true archExt 8)).fh.sr.base +
          ((rawHeaderOf (decodeHeader ((archExt.drop (8 : Int).toNat).take 60))).size - 5)
    ∧ (stepOutOf (step true archExt 8)).fh.offset = (8 : Int) + 60 :=
  c1_extended_name_resolution true archExt 8 (stepOutOf (step true archExt 8))
    (rawHeaderOf (decodeHeader ((archExt.drop (8 : Int).toNat).take 60))) 5
    rfl rfl (by decide) (by decide) (by decide) (by decide) (by decide)

/-- A `SectionReader` read never produces the `tooShort` sentinel. -/
theorem srRead_no_tooShort (pr : Bool) (s : List Char) (cur : Int)
    (sr : SectionReader) (k : Nat) :
    (srRead pr s cur sr k).1.2 ≠ some .tooShort := by
  simp only [srRead]
  split
  · simp
  · simp only [arfsReadAtSt]
    split
    · simp
    · rcases pr with _ | _ <;> simp only [] <;> split <;> simp

/-- C4: error classification at the signature and at header boundaries.
An empty stream surfaces the raw `io.EOF` from the signature read; a stream
of 1–7 bytes fails with `tooShort`; 8 bytes differing from `"!<arch>\n"`
fail with `badSignature`; a header-boundary read is `tooShort` exactly when
it returns more than zero but fewer than 60 bytes; and a zero-byte read at a
header boundary ends the scan successfully. -/
theorem c4_signature_and_boundaries :
    (∀ (pr : Bool) (fuel : Nat) (s : List Char), s.length = 0 →
      parseWith fuel pr s = .error .eof)
    ∧ (∀ (pr : Bool) (fuel : Nat) (s : List Char), 0 < s.length → s.length < 8 →
      parseWith fuel pr s = .error .tooShort)
    ∧ (∀ (pr : Bool) (fuel : Nat) (s : List Char), 8 ≤ s.length →
      s.take 8 ≠ goodSignature → parseWith fuel pr s = .error .badSignature)
    ∧ (∀ (pr : Bool) (s : List Char) (pos : Int),
      step pr s pos = .error .tooShort ↔
        (0 < ((s.drop pos.toNat).take 60).length ∧
         ((s.drop pos.toNat).take 60).length < 60))
    ∧ (∀ (pr : Bool) (s : List Char) (pos : Int) (fuel : Nat) (t : Table),
      ((s.drop pos.toNat).take 60).length = 0 →
      parseLoop pr s (fuel + 1) t pos = .ok t) := by
  refine ⟨?_, ?_, ?_, ?_, ?_⟩
  · intro pr fuel s h
    rw [List.length_eq_zero] at h
    subst h
    rfl
  · intro pr fuel s h1 h2
    simp only [parseWith]
    rw [if_neg (by simp only [List.length_take]; omega),
        if_pos (by simp only [List.length_take, ne_eq]; omega)]
  · intro pr fuel s h1 h2
    simp only [parseWith]
    rw [if_neg (by simp only [List.length_take]; omega),
        if_neg (by simp only [List.length_take, ne_eq]; omega),
        if_pos h2]
  · intro pr s pos
    constructor
    · intro he
      have hle : ((s.drop pos.toNat).take 60).length ≤ 60 := by
        simp only [List.length_take]; omega
      simp only [step] at he
      split at he
      · exact absurd he (by simp)
      split at he
      · rename_i h0 hne
        omega
      rename_i h0 hne
      split at he
      · rename_i e heq
        have := decodeHeader_error_eq heq
        subst this
        exact absurd he (by simp)
      rename_i h heq
      split at he
      · split at he
        · exact absurd he (by simp)
        rename_i len hl
        split at he
        · exact absurd he (by simp)
        rename_i hneg
        split at he
        · rename_i e herr
          injection he with he
          subst he
          exact absurd herr (srRead_no_tooShort _ _ _ _ _)
        split at he
        · exact absurd he (by simp)
        split at he
        · rename_i e hseek
          injection he with he
          subst he
          simp only [goSeekRel] at hseek
          split at hseek
          · exact absurd hseek (by simp)
          · exact absurd hseek (by simp)
        · exact absurd he (by simp)
      · split at he
        · rename_i e hseek
          injection he with he
          subst he
          simp only [goSeekRel] at hseek
          split at hseek
          · exact absurd hseek (by simp)
          · exact absurd hseek (by simp)
        · exact absurd he (by simp)
    · intro hl
      simp only [step]
      rw [if_neg (by omega), if_pos (by omega)]
  · intro pr s pos fuel t h
    have hs : step pr s pos = .ok none := by
      simp only [step]
      rw [if_pos h]
    simp [parseLoop, hs]

/-- Witness: `c4_signature_and_boundaries` at concrete streams: the empty
stream, a 3-byte stream, an 8-byte wrong signature, and a partial header
after a valid signature of `archC10`. -/
theorem c4_signature_and_boundaries_witness :
    parseWith 5 true [] = .error .eof
    ∧ parseWith 5 true "!<a".data = .error .tooShort
    ∧ parseWith 5 true "!<arch>+".data = .error .badSignature
    ∧ (step true (archC10.take 40) 8 = .error .tooShort ↔
        (0 < (((archC10.take 40).drop (8 : Int).toNat).take 60).length ∧
         (((archC10.take 40).drop (8 : Int).toNat).take 60).length < 60))
    ∧ parseLoop true archC10 (3 + 1) [] 71 = .ok [] := by
  obtain ⟨h1, h2, h3, h4, h5⟩ := c4_signature_and_boundaries
  exact ⟨h1 true 5 [] (by decide), h2 true 5 _ (by decide) (by decide),
    h3 true 5 _ (by decide) (by decide), h4 true _ 8,
    h5 true archC10 71 3 [] (by decide)⟩

/-- The emulated `ReadAt` either succeeds or fails with `io.EOF` or a
negative-offset seek error. -/
theorem arfsReadAtSt_err_cases (pr : Bool) (s : List Char) (cur off : Int) (k : Nat) :
    (arfsReadAtSt pr s cur off k).1.2 = none ∨
    (arfsReadAtSt pr s cur off k).1.2 = some .eof ∨
    (arfsReadAtSt pr s cur off k).1.2 = some .negativeSeek := by
  unfold arfsReadAtSt
  split
  · simp
  · rcases pr with _ | _ <;> dsimp only [cond] <;> split <;> simp

/-- A `SectionReader` read either succeeds or fails with `io.EOF` or a
negative-offset seek error. -/
theorem srRead_err_cases (pr : Bool) (s : List Char) (cur : Int)
    (sr : SectionReader) (k : Nat) :
    (srRead pr s cur sr k).1.2 = none ∨
    (srRead pr s cur sr k).1.2 = some .eof ∨
    (srRead pr s cur sr k).1.2 = some .negativeSeek := by
  simp only [srRead]
  split
  · simp
  · exact arfsReadAtSt_err_cases pr s cur sr.off (min k (sr.limit - sr.off).toNat)

/-- An erring `SectionReader` read errs with `io.EOF` or a negative seek. -/
theorem srRead_err_not (pr : Bool) (s : List Char) (cur : Int) (sr : SectionReader)
    (k : Nat) (e : Err) (he : (srRead pr s cur sr k).1.2 = some e) :
    e = .eof ∨ e = .negativeSeek := by
  rcases srRead_err_cases pr s cur sr k with hc | hc | hc <;> rw [he] at hc
  · exact absurd hc (by simp)
  · injection hc with hc; exact Or.inl hc
  · injection hc with hc; exact Or.inr hc

/-- A scan step never reports fuel exhaustion: that error belongs only to
the loop embedding. -/
theorem step_ne_outOfFuel (pr : Bool) (s : List Char) (pos : Int) :
    step pr s pos ≠ .error .outOfFuel := by
  simp only [step]
  split
  · simp
  split
  · simp
  split
  · rename_i e heq
    have := decodeHeader_error_eq heq
    subst this
    simp
  split
  · split
    · simp
    split
    · simp
    split
    · rename_i e herr
      intro hh
      injection hh with hh
      subst hh
      rcases srRead_err_not _ _ _ _ _ _ herr with h' | h' <;> exact absurd h' (by simp)
    split
    · simp
    split
    · rename_i e hseek
      intro hh
      injection hh with hh
      subst hh
      simp only [goSeekRel] at hseek
      split at hseek
      · exact absurd hseek (by simp)
      · exact absurd hseek (by simp)
    · simp
  · split
    · rename_i e hseek
      intro hh
      injection hh with hh
      subst hh
      simp only [goSeekRel] at hseek
      split at hseek
      · exact absurd hseek (by simp)
      · exact absurd hseek (by simp)
    · simp

/-- Nonnegative declared size at the header the scan decodes at position `p`
of the stream. -/
def sizeOkAt (s : List Char) (p : Nat) : Prop :=
  ∀ hd : RawHeader, decodeHeader ((s.drop p).take 60) = .ok hd → 0 ≤ hd.size

instance (s : List Char) (p : Nat) : Decidable (sizeOkAt s p) :=
  match h : decodeHeader ((s.drop p).take 60) with
  | .ok hd =>
    if hs : 0 ≤ hd.size then
      .isTrue (fun hd' hh => by
        rw [h] at hh
        injection hh with hh
        rw [← hh]
        exact hs)
    else .isFalse (fun hall => hs (hall hd h))
  | .error e => .isTrue (fun hd' hh => by rw [h] at hh; exact absurd hh (by simp))

/-- The scan loop cannot exhaust fuel `fuel + 1` when `60 * fuel` covers the
rest of the stream, provided every decodable header declares a nonnegative
size (the scan then only moves forward, by at least 60 per member). -/
theorem parseLoop_total (pr : Bool) (s : List Char)
    (hgs : ∀ p : Nat, p < s.length → sizeOkAt s p) :
    ∀ (fuel : Nat) (t : Table) (pos : Int), 0 ≤ pos →
      (s.length : Int) ≤ pos + 60 * fuel →
      parseLoop pr s (fuel + 1) t pos ≠ .error .outOfFuel := by
  intro fuel
  induction fuel with
  | zero =>
    intro t pos hpos hlen
    have hchunk : ((s.drop pos.toNat).take 60).length = 0 := by
      simp only [List.length_take, List.length_drop]
      omega
    have hstep : step pr s pos = .ok none := by
      simp only [step]
      rw [if_pos hchunk]
    simp [parseLoop, hstep]
  | succ n ih =>
    intro t pos hpos hlen
    rcases hsp : step pr s pos with e | o'
    · rw [parseLoop, hsp]
      intro hh
      injection hh with hh
      exact step_ne_outOfFuel pr s pos (by rw [hsp, hh])
    rcases o' with _ | o
    · rw [parseLoop, hsp]
      simp
    · rw [parseLoop, hsp]
      -- the step decoded a full header at `pos`, whose size is nonnegative
      have hlen60 : ((s.drop pos.toNat).take 60).length = 60 := by
        by_contra hne
        rcases Nat.eq_zero_or_pos ((s.drop pos.toNat).take 60).length with h0 | h0
        · have : step pr s pos = .ok none := by
            simp only [step]; rw [if_pos h0]
          rw [this] at hsp
          exact absurd hsp (by simp)
        · have : step pr s pos = .error .tooShort := by
            simp only [step]; rw [if_neg (by omega), if_pos (by omega)]
          rw [this] at hsp
          exact absurd hsp (by simp)
      rcases hdec : decodeHeader ((s.drop pos.toNat).take 60) with e | hd
      · have : step pr s pos = .error e := by
          simp only [step]
          rw [if_neg (by omega), if_neg (by omega), hdec]
        rw [this] at hsp
        exact absurd hsp (by simp)
      have hple : pos.toNat < s.length := by
        by_contra hge
        have : ((s.drop pos.toNat).take 60).length = 0 := by
          simp only [List.length_take, List.length_drop]
          omega
        omega
      have hsz : 0 ≤ hd.size := hgs pos.toNat hple hd hdec
      obtain ⟨extra, hex, hnext, _, _⟩ := step_next_eq pr s pos o hd hsp hdec
      exact ih (insertEntry o.key o.fh t) o.next (by omega) (by push_cast at hlen ⊢; omega)

/-- C9 (amended): on every input stream whose decodable 60-byte headers all
declare nonnegative sizes, archive construction runs to completion: the
single linear scan returns either a constructed table or an error.  (The
`outOfFuel` marker is the embedding's rendering of a non-terminating run;
`c9_counterexample` shows a negative size field does produce one.) -/
theorem c9_terminates (pr : Bool) (s : List Char)
    (hgs : ∀ p : Nat, p < s.length → sizeOkAt s p) :
    parse pr s ≠ .error .outOfFuel := by
  show parseWith (s.length + 2) pr s ≠ .error .outOfFuel
  simp only [parseWith]
  split
  · simp
  split
  · simp
  split
  · simp
  have := parseLoop_total pr s hgs (s.length + 1) [] 8 (by omega) (by push_cast; omega)
  exact this

/-- Witness: `c9_terminates` on `archC10` (all declared sizes nonnegative). -/
theorem c9_terminates_witness :
    (∀ p : Nat, p < archC10.length → sizeOkAt archC10 p) ∧
    parse true archC10 ≠ .error .outOfFuel :=
  ⟨by decide, c9_terminates true archC10 (by decide)⟩

/-- Draining a section reader whose window is backed by the stream collects
exactly the window's remaining bytes, with no error. -/
theorem readAllLoop_spec (pr : Bool) (s : List Char) :
    ∀ (fuel : Nat) (sr : SectionReader) (acc : List Char),
      0 ≤ sr.off → sr.limit ≤ (s.length : Int) →
      (sr.limit - sr.off).toNat < fuel →
      (readAllLoop pr s fuel sr acc).1 =
        (acc ++ (s.drop sr.off.toNat).take (sr.limit - sr.off).toNat, none) := by
  intro fuel
  induction fuel with
  | zero =>
    intro sr acc h1 h2 h3
    omega
  | succ n ih =>
    intro sr acc h1 h2 h3
    by_cases hle : sr.limit ≤ sr.off
    · have hr : srRead pr s 0 sr 512 = (([], some .eof), sr, 0) := by
        simp only [srRead]
        rw [if_pos hle]
      have h0 : (sr.limit - sr.off).toNat = 0 := by omega
      rw [readAllLoop, hr]
      simp [h0]
    · push_neg at hle
      have hbytes : ((s.drop sr.off.toNat).take (min 512 (sr.limit - sr.off).toNat)).length
          = min 512 (sr.limit - sr.off).toNat := by
        rw [List.length_take, List.length_drop]
        omega
      have hsr : srRead pr s 0 sr 512 =
          (((s.drop sr.off.toNat).take (min 512 (sr.limit - sr.off).toNat), none),
           { sr with off := sr.off + (min 512 (sr.limit - sr.off).toNat : Nat) },
           cond pr 0 (sr.off + (min 512 (sr.limit - sr.off).toNat : Nat))) := by
        simp only [srRead]
        rw [if_neg (by omega)]
        unfold arfsReadAtSt
        rw [if_neg (by omega)]
        rcases pr with _ | _ <;> dsimp only [cond] <;>
          rw [if_neg (by simp only [hbytes]; omega)] <;> rw [hbytes]
      rw [readAllLoop, hsr]
      dsimp only
      have hnext := ih { sr with off := sr.off + (min 512 (sr.limit - sr.off).toNat : Nat) }
        (acc ++ (s.drop sr.off.toNat).take (min 512 (sr.limit - sr.off).toNat))
        (show (0 : Int) ≤ sr.off + (min 512 (sr.limit - sr.off).toNat : Nat) by omega)
        (show sr.limit ≤ (s.length : Int) from h2)
        (show (sr.limit - (sr.off + (min 512 (sr.limit - sr.off).toNat : Nat))).toNat < n by
          omega)
      rw [hnext]
      congr 1
      rw [List.append_assoc]
      congr 1
      have hdd : s.drop ((sr.off + (min 512 (sr.limit - sr.off).toNat : Nat) : Int)).toNat =
          (s.drop sr.off.toNat).drop (min 512 (sr.limit - sr.off).toNat) := by
        rw [List.drop_drop]
        congr 1
        omega
      show (s.drop sr.off.toNat).take (min 512 (sr.limit - sr.off).toNat) ++
          (s.drop ((sr.off + (min 512 (sr.limit - sr.off).toNat : Nat) : Int)).toNat).take
            ((sr.limit - (sr.off + (min 512 (sr.limit - sr.off).toNat : Nat))).toNat) =
        (s.drop sr.off.toNat).take (sr.limit - sr.off).toNat
      rw [hdd, ← List.take_add]
      congr 1
      omega

/-- C3: on a well-formed archive (the member's full declared window is
backed by stream bytes), `ReadFile` of a present member returns exactly the
declared (post-extended-name-adjustment) number of bytes — the member's
content — and `Stat` reports a size equal to that length. -/
theorem c3_read_file_exact (pr : Bool) (s : List Char) (a : ARFS) (nm : List Char)
    (fh : fileHeader)
    (ha : FromInterface pr s = .ok a)
    (hget : getHeader a nm = some fh)
    (hoff : fh.sr.off = fh.sr.base)
    (hb : 0 ≤ fh.sr.base)
    (hlim : fh.sr.limit = fh.sr.base + (fh.size : Int))
    (hdata : fh.sr.limit ≤ (s.length : Int)) :
    (a.ReadFile nm).1 = .ok ((s.drop fh.sr.base.toNat).take fh.size)
    ∧ ((s.drop fh.sr.base.toNat).take fh.size).length = fh.size
    ∧ a.Stat nm = .ok fh
    ∧ fh.Size = (((s.drop fh.sr.base.toNat).take fh.size).length : Int) := by
  have hstream : a.stream = s := by
    simp only [FromInterface] at ha
    split at ha
    · exact absurd ha (by simp)
    · injection ha with ha
      rw [← ha]
  have hfuel : (fh.sr.limit - fh.sr.off).toNat < readAllFuel fh.sr := by
    simp only [readAllFuel]
    omega
  have hspec := readAllLoop_spec a.posReads a.stream (readAllFuel fh.sr) fh.sr []
    (by omega) (by rw [hstream]; exact hdata) hfuel
  have hlen : ((s.drop fh.sr.base.toNat).take fh.size).length = fh.size := by
    rw [List.length_take, List.length_drop]
    omega
  have htn : (fh.sr.limit - fh.sr.off).toNat = fh.size := by omega
  refine ⟨?_, hlen, ?_, ?_⟩
  · simp only [ARFS.ReadFile, hget]
    rw [hspec]
    simp only [List.nil_append]
    rw [htn, hstream, hoff]
  · simp only [ARFS.Stat, hget]
  · rw [hlen]
    rfl

/-- Extract the archive of a successful construction. -/
def arfsOf (r : Except Err ARFS) : ARFS :=
  match r with
  | .ok a => a
  | .error _ => default

/-- Extract an optional table entry. -/
def fhOf (o : Option fileHeader) : fileHeader :=
  match o with
  | some fh => fh
  | none => default

/-- Witness: `c3_read_file_exact` on `archC6`, member `ab`, content `hi`. -/
theorem c3_read_file_exact_witness :
    ((arfsOf (FromInterface true archC6)).ReadFile "ab".data).1 =
      .ok ((archC6.drop (fhOf (getHeader (arfsOf (FromInterface true archC6))
        "ab".data)).sr.base.toNat).take
          (fhOf (getHeader (arfsOf (FromInterface true archC6)) "ab".data)).size)
    ∧ ((archC6.drop (fhOf (getHeader (arfsOf (FromInterface true archC6))
        "ab".data)).sr.base.toNat).take
          (fhOf (getHeader (arfsOf (FromInterface true archC6)) "ab".data)).size).length =
        (fhOf (getHeader (arfsOf (FromInterface true archC6)) "ab".data)).size
    ∧ (arfsOf (FromInterface true archC6)).Stat "ab".data =
        .ok (fhOf (getHeader (arfsOf (FromInterface true archC6)) "ab".data))
    ∧ (fhOf (getHeader (arfsOf (FromInterface true archC6)) "ab".data)).Size =
        (((archC6.drop (fhOf (getHeader (arfsOf (FromInterface true archC6))
          "ab".data)).sr.base.toNat).take
            (fhOf (getHeader (arfsOf (FromInterface true archC6)) "ab".data)).size).length : Int) :=
  c3_read_file_exact true archC6 (arfsOf (FromInterface true archC6)) "ab".data
    (fhOf (getHeader (arfsOf (FromInterface true archC6)) "ab".data))
    (by decide) (by decide) (by decide) (by decide) (by decide) (by decide)

/-- C7: window confinement of member handles.  For an entry of a constructed
archive whose window matches its size (`limit = base + size`, as for every
nonnegative declared size), and any reader state reachable from it (same
window, cursor at or past the base): sequential reads return exactly the
in-window slice at the cursor and never bytes at positions outside
`[base, base + size)`; reading with the cursor at or past the window end
yields no bytes and `io.EOF`; the evolved reader keeps the window and never
moves backwards; `ReadAt` is likewise confined; and a successful `Seek`
keeps the window and never places the cursor below the base. -/
theorem c7_window_confinement (pr : Bool) (s : List Char) (a : ARFS) (nm : List Char)
    (fh : fileHeader) (sr : SectionReader)
    (ha : FromInterface pr s = .ok a)
    (hget : getHeader a nm = some fh)
    (h0 : 0 ≤ fh.sr.base)
    (hlim : fh.sr.limit = fh.sr.base + (fh.size : Int))
    (hbase : sr.base = fh.sr.base) (hlimit : sr.limit = fh.sr.limit)
    (hinv : sr.base ≤ sr.off) :
    (∀ (k : Nat) (cur : Int),
      (srRead pr s cur sr k).1.1 =
        (s.drop sr.off.toNat).take (min k (sr.limit - sr.off).toNat))
    ∧ (∀ (k : Nat) (cur : Int), (srRead pr s cur sr k).1.1 ≠ [] →
        fh.sr.base ≤ sr.off ∧
        sr.off + (((srRead pr s cur sr k).1.1).length : Int) ≤
          fh.sr.base + (fh.size : Int))
    ∧ (∀ (k : Nat) (cur : Int), sr.limit ≤ sr.off →
        (srRead pr s cur sr k).1 = ([], some .eof))
    ∧ (∀ (k : Nat) (cur : Int),
        ((srRead pr s cur sr k).2.1).base = sr.base ∧
        ((srRead pr s cur sr k).2.1).limit = sr.limit ∧
        sr.off ≤ ((srRead pr s cur sr k).2.1).off)
    ∧ (∀ (k : Nat) (cur off : Int),
        (srReadAt pr s cur sr k off).1.1 ≠ [] →
        0 ≤ off ∧ off < sr.limit - sr.base ∧
        (srReadAt pr s cur sr k off).1.1 =
          (s.drop (off + sr.base).toNat).take (min k (sr.limit - (off + sr.base)).toNat) ∧
        fh.sr.base ≤ off + sr.base ∧
        off + sr.base + (((srReadAt pr s cur sr k off).1.1).length : Int) ≤
          fh.sr.base + (fh.size : Int))
    ∧ (∀ (off : Int) (whence : Nat) (res : Int) (sr' : SectionReader),
        srSeek sr off whence = .ok (res, sr') →
        sr'.base = sr.base ∧ sr'.limit = sr.limit ∧ sr.base ≤ sr'.off) := by
  have hoff0 : 0 ≤ sr.off := by omega
  refine ⟨?_, ?_, ?_, ?_, ?_, ?_⟩
  · intro k cur
    exact srRead_bytes pr s cur sr k hoff0
  · intro k cur hne
    rw [srRead_bytes pr s cur sr k hoff0] at hne ⊢
    have hlen := List.length_take (min k (sr.limit - sr.off).toNat) (s.drop sr.off.toNat)
    have hne' : ((s.drop sr.off.toNat).take (min k (sr.limit - sr.off).toNat)).length ≠ 0 := by
      intro hz
      exact hne (List.eq_nil_of_length_eq_zero hz)
    constructor
    · omega
    · omega
  · intro k cur hend
    simp only [srRead]
    rw [if_pos hend]
  · intro k cur
    simp only [srRead]
    split
    · exact ⟨rfl, rfl, le_refl _⟩
    · refine ⟨rfl, rfl, ?_⟩
      show sr.off ≤ sr.off +
        (((arfsReadAtSt pr s cur sr.off (min k (sr.limit - sr.off).toNat)).1.1).length : Int)
      have hnn : (0 : Int) ≤
          (((arfsReadAtSt pr s cur sr.off (min k (sr.limit - sr.off).toNat)).1.1).length : Int) :=
        Int.natCast_nonneg _
      omega
  · intro k cur off hne
    simp only [srReadAt] at hne ⊢
    split at hne
    · exact absurd rfl hne
    · rename_i hguard
      rw [if_neg hguard]
      have hg := hguard
      push_neg at hg
      obtain ⟨hg1, hg2⟩ := hg
      have hoff2 : 0 ≤ off + sr.base := by omega
      have hbk : ∀ kk : Nat, (arfsReadAtSt pr s cur (off + sr.base) kk).1.1 =
          (s.drop (off + sr.base).toNat).take kk := by
        intro kk
        unfold arfsReadAtSt
        rw [if_neg (by omega)]
      split at hne
      · rename_i hgt
        rw [if_pos hgt]
        dsimp only
        refine ⟨by omega, by omega, ?_, by omega, ?_⟩
        · rw [hbk]
          congr 1
          omega
        · rw [hbk]
          have := List.length_take (sr.limit - (off + sr.base)).toNat
            (s.drop (off + sr.base).toNat)
          omega
      · rename_i hgt
        rw [if_neg hgt]
        dsimp only
        refine ⟨by omega, by omega, ?_, by omega, ?_⟩
        · rw [hbk]
          congr 1
          omega
        · rw [hbk]
          have := List.length_take k (s.drop (off + sr.base).toNat)
          omega
  · intro off whence res sr' hseek
    rcases whence with _ | _ | _ | w
    · simp only [srSeek] at hseek
      split at hseek
      · exact absurd hseek (by simp)
      · rename_i hok
        injection hseek with hseek
        injection hseek with h1 h2
        rw [← h2]
        refine ⟨rfl, rfl, ?_⟩
        show sr.base ≤ off + sr.base
        omega
    · simp only [srSeek] at hseek
      split at hseek
      · exact absurd hseek (by simp)
      · rename_i hok
        injection hseek with hseek
        injection hseek with h1 h2
        rw [← h2]
        refine ⟨rfl, rfl, ?_⟩
        show sr.base ≤ off + sr.off
        omega
    · simp only [srSeek] at hseek
      split at hseek
      · exact absurd hseek (by simp)
      · rename_i hok
        injection hseek with hseek
        injection hseek with h1 h2
        rw [← h2]
        refine ⟨rfl, rfl, ?_⟩
        show sr.base ≤ off + sr.limit
        omega
    · exact absurd hseek (by simp [srSeek])

/-- The archive of `archC6` and its member `ab`, used as concrete instances. -/
def aC7 : ARFS := arfsOf (FromInterface true archC6)

/-- The entry of member `ab` in `aC7`. -/
def fhC7 : fileHeader := fhOf (getHeader aC7 "ab".data)

/-- Witness: `c7_window_confinement` on `archC6`'s member `ab`
(window `[68, 70)`), at the fresh reader, at the drained reader state
`off = 70`, at `ReadAt` offset 1, and at a `Seek` to offset 1. -/
theorem c7_window_confinement_witness :
    ((srRead true archC6 0 fhC7.sr 2).1.1 =
      (archC6.drop fhC7.sr.off.toNat).take (min 2 (fhC7.sr.limit - fhC7.sr.off).toNat))
    ∧ (fhC7.sr.base ≤ fhC7.sr.off ∧
        fhC7.sr.off + (((srRead true archC6 0 fhC7.sr 2).1.1).length : Int) ≤
          fhC7.sr.base + (fhC7.size : Int))
    ∧ ((srRead true archC6 0 (SectionReader.mk 68 70 70) 2).1 = ([], some .eof))
    ∧ (((srRead true archC6 0 fhC7.sr 2).2.1).base = fhC7.sr.base ∧
        ((srRead true archC6 0 fhC7.sr 2).2.1).limit = fhC7.sr.limit ∧
        fhC7.sr.off ≤ ((srRead true archC6 0 fhC7.sr 2).2.1).off)
    ∧ ((0 : Int) ≤ 1 ∧ (1 : Int) < fhC7.sr.limit - fhC7.sr.base ∧
        (srReadAt true archC6 0 fhC7.sr 5 1).1.1 =
          (archC6.drop ((1 : Int) + fhC7.sr.base).toNat).take
            (min 5 (fhC7.sr.limit - ((1 : Int) + fhC7.sr.base)).toNat) ∧
        fhC7.sr.base ≤ (1 : Int) + fhC7.sr.base ∧
        (1 : Int) + fhC7.sr.base + (((srReadAt true archC6 0 fhC7.sr 5 1).1.1).length : Int) ≤
          fhC7.sr.base + (fhC7.size : Int))
    ∧ ((SectionReader.mk 68 69 70).base = fhC7.sr.base ∧
        (SectionReader.mk 68 69 70).limit = fhC7.sr.limit ∧
        fhC7.sr.base ≤ (SectionReader.mk 68 69 70).off) := by
  have h1 := c7_window_confinement true archC6 aC7 "ab".data fhC7 fhC7.sr
    (by decide) (by decide) (by decide) (by decide) rfl rfl (by decide)
  have h2 := c7_window_confinement true archC6 aC7 "ab".data fhC7
    (SectionReader.mk 68 70 70)
    (by decide) (by decide) (by decide) (by decide) (by decide) (by decide) (by decide)
  refine ⟨h1.1 2 0, (h1.2.1 2 0) (by decide), (h2.2.2.1 2 0) (by decide),
    h1.2.2.2.1 2 0, (h1.2.2.2.2.1 5 0 1) (by decide), ?_⟩
  exact (h1.2.2.2.2.2 1 0 1 (SectionReader.mk 68 69 70)) (by decide)

/-- A plain path segment: nonempty, not `.` or `..`, and slash-free. -/
def goodSeg (seg : List Char) : Prop :=
  seg ≠ [] ∧ seg ≠ ['.'] ∧ seg ≠ ['.', '.'] ∧ '/' ∉ seg

/-- Unfolding lemma for `joinSegs` on two or more segments. -/
theorem joinSegs_cons (seg r : List Char) (rs : List (List Char)) :
    joinSegs (seg :: r :: rs) = seg ++ '/' :: joinSegs (r :: rs) := rfl

/-- Splitting consumes a slash-free chunk into the accumulator. -/
theorem splitSegsAux_append (seg : List Char) (cs acc : List Char) (h : '/' ∉ seg) :
    splitSegsAux (seg ++ cs) acc = splitSegsAux cs (seg.reverse ++ acc) := by
  induction seg generalizing acc with
  | nil => simp
  | cons c tl ih =>
    have hc : ¬ c = '/' := by
      intro hh
      exact h (by rw [hh]; exact List.mem_cons_self _ _)
    rw [List.cons_append, splitSegsAux, if_neg hc, ih _ (fun hm => h (List.mem_cons_of_mem _ hm))]
    congr 1
    simp

/-- A slash-free list is a single segment. -/
theorem splitSegs_single (seg : List Char) (h : '/' ∉ seg) : splitSegs seg = [seg] := by
  have := splitSegsAux_append seg [] [] h
  rw [List.append_nil] at this
  rw [splitSegs, this, splitSegsAux]
  simp

/-- Splitting is a left inverse of joining for slash-free segments. -/
theorem splitSegs_join (segs : List (List Char)) (hne : segs ≠ [])
    (h : ∀ seg ∈ segs, '/' ∉ seg) : splitSegs (joinSegs segs) = segs := by
  induction segs with
  | nil => exact absurd rfl hne
  | cons seg rest ih =>
    rcases rest with _ | ⟨r, rs⟩
    · exact splitSegs_single seg (h seg (List.mem_cons_self _ _))
    · rw [joinSegs_cons, splitSegs,
        splitSegsAux_append seg _ [] (h seg (List.mem_cons_self _ _)),
        splitSegsAux]
      rw [if_pos rfl]
      have ihr := ih (by intro hh; cases hh) (fun sg hm => h sg (List.mem_cons_of_mem _ hm))
      rw [splitSegs] at ihr
      rw [ihr]
      simp

/-- `path.Clean`'s element processing appends plain segments unchanged. -/
theorem cleanSegs_good (rooted : Bool) (segs : List (List Char)) (out : List (List Char))
    (h : ∀ seg ∈ segs, goodSeg seg) :
    segs.foldl (cleanStepF rooted) out = out ++ segs := by
  induction segs generalizing out with
  | nil => simp
  | cons seg rest ih =>
    obtain ⟨h1, h2, h3, _⟩ := h seg (List.mem_cons_self _ _)
    rw [List.foldl_cons]
    have hstep : cleanStepF rooted out seg = out ++ [seg] := by
      rw [cleanStepF, if_neg (by tauto), if_neg h3]
    rw [hstep, ih _ (fun sg hm => h sg (List.mem_cons_of_mem _ hm))]
    simp

/-- Joining good segments yields a nonempty path. -/
theorem joinSegs_ne_nil (seg : List Char) (rest : List (List Char)) (h : seg ≠ []) :
    joinSegs (seg :: rest) ≠ [] := by
  rcases rest with _ | ⟨r, rs⟩
  · exact h
  · rw [joinSegs_cons]
    simp [h]

/-- The head of a joined path is the head of its first segment. -/
theorem joinSegs_head (seg : List Char) (rest : List (List Char)) (h : seg ≠ []) :
    (joinSegs (seg :: rest)).head? = seg.head? := by
  rcases rest with _ | ⟨r, rs⟩
  · rfl
  · rw [joinSegs_cons]
    rcases seg with _ | ⟨c, tl⟩
    · exact absurd rfl h
    · rfl

instance (seg : List Char) : Decidable (goodSeg seg) :=
  inferInstanceAs (Decidable (_ ∧ _ ∧ _ ∧ _))

/-- A path of good segments is a `path.Clean` fixpoint. -/
theorem pathClean_join (segs : List (List Char)) (hne : segs ≠ [])
    (hg : ∀ sg ∈ segs, goodSeg sg) :
    pathClean (joinSegs segs) = joinSegs segs := by
  obtain ⟨seg, rest, rfl⟩ : ∃ seg rest, segs = seg :: rest := by
    rcases segs with _ | ⟨seg, rest⟩
    · exact absurd rfl hne
    · exact ⟨seg, rest, rfl⟩
  have hseg := hg seg (List.mem_cons_self _ _)
  have hn : joinSegs (seg :: rest) ≠ [] := joinSegs_ne_nil seg rest hseg.1
  have hrooted : ¬ ((joinSegs (seg :: rest)).head? = some '/') := by
    rw [joinSegs_head seg rest hseg.1]
    rcases seg with _ | ⟨c, tl⟩
    · exact absurd rfl hseg.1
    · intro hh
      injection hh with hh
      exact hseg.2.2.2 (by rw [hh]; exact List.mem_cons_self _ _)
  simp only [pathClean]
  rw [if_neg hn,
    splitSegs_join _ hne (fun sg hm => (hg sg hm).2.2.2),
    cleanSegs_good _ _ [] hg,
    if_neg hrooted, List.nil_append, List.nil_append, if_neg hn]

/-- Prefixing `./` to a path of good segments cleans back to the path. -/
theorem pathClean_dotslash (segs : List (List Char)) (hne : segs ≠ [])
    (hg : ∀ sg ∈ segs, goodSeg sg) :
    pathClean ('.' :: '/' :: joinSegs segs) = joinSegs segs := by
  obtain ⟨seg, rest, rfl⟩ : ∃ seg rest, segs = seg :: rest := by
    rcases segs with _ | ⟨seg, rest⟩
    · exact absurd rfl hne
    · exact ⟨seg, rest, rfl⟩
  have hseg := hg seg (List.mem_cons_self _ _)
  have hn : joinSegs (seg :: rest) ≠ [] := joinSegs_ne_nil seg rest hseg.1
  have hsplit : splitSegs ('.' :: '/' :: joinSegs (seg :: rest)) =
      ['.'] :: splitSegs (joinSegs (seg :: rest)) := by
    rw [splitSegs, splitSegsAux, if_neg (by decide), splitSegsAux, if_pos rfl]
    rfl
  simp only [pathClean]
  rw [if_neg (by intro hh; cases hh), hsplit,
    splitSegs_join _ hne (fun sg hm => (hg sg hm).2.2.2)]
  rw [List.foldl_cons]
  have hdot : ∀ b : Bool, cleanStepF b [] ['.'] = [] := by
    intro b
    rw [cleanStepF, if_pos (Or.inr rfl)]
  rw [hdot, cleanSegs_good _ _ [] hg]
  have hr : (if ('.' :: '/' :: joinSegs (seg :: rest)).head? = some '/'
      then ['/'] else ([] : List Char)) = [] := by
    rw [if_neg (by intro hh; simp at hh)]
  rw [hr]
  simp only [List.nil_append]
  rw [if_neg hn]

/-- Prefixing `/` to a path of good segments cleans to the rooted path. -/
theorem pathClean_root (segs : List (List Char)) (hne : segs ≠ [])
    (hg : ∀ sg ∈ segs, goodSeg sg) :
    pathClean ('/' :: joinSegs segs) = '/' :: joinSegs segs := by
  have hsplit : splitSegs ('/' :: joinSegs segs) = [] :: splitSegs (joinSegs segs) := by
    rw [splitSegs, splitSegsAux, if_pos rfl]
    rfl
  simp only [pathClean]
  rw [if_neg (by intro hh; cases hh), hsplit,
    splitSegs_join _ hne (fun sg hm => (hg sg hm).2.2.2)]
  rw [List.foldl_cons]
  have hnil : ∀ b : Bool, cleanStepF b [] [] = [] := by
    intro b
    rw [cleanStepF, if_pos (Or.inl rfl)]
  rw [hnil, cleanSegs_good _ _ [] hg]
  have hr : (if ('/' :: joinSegs segs).head? = some '/'
      then ['/'] else ([] : List Char)) = ['/'] := by
    rw [if_pos (by simp)]
  rw [hr]
  simp only [List.nil_append, List.singleton_append]
  rw [if_neg (by intro hh; cases hh)]

/-- A path of good segments does not start with `/`. -/
theorem not_slash_start (seg : List Char) (rest : List (List Char)) (hg : goodSeg seg) :
    ¬ (['/'].isPrefixOf (joinSegs (seg :: rest)) = true) := by
  intro hh
  have hhead : (joinSegs (seg :: rest)).head? = seg.head? := joinSegs_head seg rest hg.1
  rcases he : joinSegs (seg :: rest) with _ | ⟨c, tl⟩
  · exact joinSegs_ne_nil seg rest hg.1 he
  · rw [he] at hh hhead
    simp only [List.isPrefixOf, Bool.and_eq_true, beq_iff_eq] at hh
    rcases seg with _ | ⟨c1, tl1⟩
    · exact absurd rfl hg.1
    · injection hhead with hhead
      exact hg.2.2.2 (by rw [← hhead, ← hh.1]; exact List.mem_cons_self _ _)

/-- A path of good segments does not start with `./`. -/
theorem not_dotslash_start (seg : List Char) (rest : List (List Char)) (hg : goodSeg seg) :
    ¬ (['.', '/'].isPrefixOf (joinSegs (seg :: rest)) = true) := by
  intro hh
  rcases seg with _ | ⟨c1, tl⟩
  · exact absurd rfl hg.1
  rcases tl with _ | ⟨c2, tl2⟩
  · -- single-character first segment: it is not '.'
    have hc1 : c1 ≠ '.' := by
      intro hc
      exact hg.2.1 (by rw [hc])
    rcases rest with _ | ⟨r, rs⟩
    · simp [joinSegs, List.isPrefixOf] at hh
    · rw [joinSegs_cons] at hh
      simp [List.isPrefixOf] at hh
      exact hc1 hh.symm
  · -- the second character of the path is in the first segment, so not '/'
    have hc2 : c2 ≠ '/' := by
      intro hc
      exact hg.2.2.2 (by rw [← hc]; exact List.mem_cons_of_mem _ (List.mem_cons_self _ _))
    have hstruct : ∃ tail, joinSegs ((c1 :: c2 :: tl2) :: rest) = c1 :: c2 :: tl2 ++ tail := by
      rcases rest with _ | ⟨r, rs⟩
      · exact ⟨[], by simp [joinSegs]⟩
      · exact ⟨'/' :: joinSegs (r :: rs), by rw [joinSegs_cons]⟩
    obtain ⟨tail, htail⟩ := hstruct
    rw [htail] at hh
    simp only [List.isPrefixOf, Bool.and_eq_true, beq_iff_eq] at hh
    exact hc2 hh.2.1.symm

/-- Normalization fixes a good relative name. -/
theorem normalizeName_good (segs : List (List Char)) (hne : segs ≠ [])
    (hg : ∀ sg ∈ segs, goodSeg sg) :
    normalizeName (joinSegs segs) = joinSegs segs := by
  obtain ⟨seg, rest, rfl⟩ : ∃ seg rest, segs = seg :: rest := by
    rcases segs with _ | ⟨seg, rest⟩
    · exact absurd rfl hne
    · exact ⟨seg, rest, rfl⟩
  have d1 : dropStart ['/'] (joinSegs (seg :: rest)) = joinSegs (seg :: rest) := by
    rw [dropStart, if_neg (not_slash_start seg rest (hg seg (List.mem_cons_self _ _)))]
  have d2 : dropStart ['.', '/'] (joinSegs (seg :: rest)) = joinSegs (seg :: rest) := by
    rw [dropStart, if_neg (not_dotslash_start seg rest (hg seg (List.mem_cons_self _ _)))]
  rw [normalizeName, pathClean_join _ hne hg, d1, d2]

/-- Normalization strips one root separator from a good name. -/
theorem normalizeName_slash (segs : List (List Char)) (hne : segs ≠ [])
    (hg : ∀ sg ∈ segs, goodSeg sg) :
    normalizeName ('/' :: joinSegs segs) = joinSegs segs := by
  obtain ⟨seg, rest, rfl⟩ : ∃ seg rest, segs = seg :: rest := by
    rcases segs with _ | ⟨seg, rest⟩
    · exact absurd rfl hne
    · exact ⟨seg, rest, rfl⟩
  have d1 : dropStart ['/'] ('/' :: joinSegs (seg :: rest)) = joinSegs (seg :: rest) := by
    rw [dropStart, if_pos (by simp [List.isPrefixOf])]
    simp
  have d2 : dropStart ['.', '/'] (joinSegs (seg :: rest)) = joinSegs (seg :: rest) := by
    rw [dropStart, if_neg (not_dotslash_start seg rest (hg seg (List.mem_cons_self _ _)))]
  rw [normalizeName, pathClean_root _ hne hg, d1, d2]

/-- Normalization strips a leading `./` from a good name. -/
theorem normalizeName_dotslash (segs : List (List Char)) (hne : segs ≠ [])
    (hg : ∀ sg ∈ segs, goodSeg sg) :
    normalizeName ('.' :: '/' :: joinSegs segs) = joinSegs segs := by
  obtain ⟨seg, rest, rfl⟩ : ∃ seg rest, segs = seg :: rest := by
    rcases segs with _ | ⟨seg, rest⟩
    · exact absurd rfl hne
    · exact ⟨seg, rest, rfl⟩
  have d1 : dropStart ['/'] (joinSegs (seg :: rest)) = joinSegs (seg :: rest) := by
    rw [dropStart, if_neg (not_slash_start seg rest (hg seg (List.mem_cons_self _ _)))]
  have d2 : dropStart ['.', '/'] (joinSegs (seg :: rest)) = joinSegs (seg :: rest) := by
    rw [dropStart, if_neg (not_dotslash_start seg rest (hg seg (List.mem_cons_self _ _)))]
  rw [normalizeName, pathClean_dotslash _ hne hg, d1, d2]

/-- Draining a reader never reports `fs.ErrNotExist`. -/
theorem readAllLoop_ne_notExist (pr : Bool) (s : List Char) :
    ∀ (fuel : Nat) (sr : SectionReader) (acc : List Char),
      (readAllLoop pr s fuel sr acc).1.2 ≠ some .notExist := by
  intro fuel
  induction fuel with
  | zero => intro sr acc; simp [readAllLoop]
  | succ n ih =>
    intro sr acc
    rw [readAllLoop]
    split
    · rename_i e heq
      rcases srRead_err_not _ _ _ _ _ _ heq with h' | h' <;> simp [h']
    · exact ih _ _

/-- C8 (amended): for every member whose name is a nonempty clean relative
path (no empty, `.` or `..` segments, not rooted), `open("/x")`, `open("./x")`
and `open("x")` normalize to the same key and resolve to the same entry; and
for every supplied name, `Open`, `Stat` and `ReadFile` return `NotExist`
exactly when the normalized name is absent from the table.
(`c8_counterexample` shows the unrestricted claim fails for the member named
by the empty string.) -/
theorem c8_normalized_lookup (segs : List (List Char)) (name : List Char)
    (hn : name = joinSegs segs) (hne : segs ≠ [])
    (hg : ∀ sg ∈ segs, goodSeg sg) :
    normalizeName name = name
    ∧ normalizeName ('/' :: name) = name
    ∧ normalizeName ('.' :: '/' :: name) = name
    ∧ (∀ a : ARFS, a.Open ('/' :: name) = a.Open name ∧
        a.Open ('.' :: '/' :: name) = a.Open name)
    ∧ (∀ (a : ARFS) (q : List Char),
        (a.Open q = .error .notExist ↔
          lookupEntry a.fileHeaders (normalizeName q) = none) ∧
        (a.Stat q = .error .notExist ↔
          lookupEntry a.fileHeaders (normalizeName q) = none) ∧
        ((a.ReadFile q).1 = .error .notExist ↔
          lookupEntry a.fileHeaders (normalizeName q) = none)) := by
  subst hn
  have e1 := normalizeName_good segs hne hg
  have e2 := normalizeName_slash segs hne hg
  have e3 := normalizeName_dotslash segs hne hg
  refine ⟨e1, e2, e3, ?_, ?_⟩
  · intro a
    constructor
    · simp only [ARFS.Open, getHeader, e1, e2]
    · simp only [ARFS.Open, getHeader, e1, e3]
  · intro a q
    rcases hl : lookupEntry a.fileHeaders (normalizeName q) with _ | fh
    · refine ⟨?_, ?_, ?_⟩ <;> simp [ARFS.Open, ARFS.Stat, ARFS.ReadFile, getHeader, hl]
    · refine ⟨?_, ?_, ?_⟩
      · simp [ARFS.Open, getHeader, hl]
      · simp [ARFS.Stat, getHeader, hl]
      · simp only [ARFS.ReadFile, getHeader, hl]
        constructor
        · intro hh
          split at hh
          · rename_i e heq
            injection hh with hh
            exact absurd heq (by rw [hh]; exact readAllLoop_ne_notExist _ _ _ _ _)
          · exact absurd hh (by simp)
        · intro hh
          exact absurd hh (by simp)

/-- Witness: `c8_normalized_lookup` at member name `ab` and the archive of
`archC6`, with lookups of the absent name `zz`. -/
theorem c8_normalized_lookup_witness :
    normalizeName "ab".data = "ab".data
    ∧ normalizeName ('/' :: "ab".data) = "ab".data
    ∧ normalizeName ('.' :: '/' :: "ab".data) = "ab".data
    ∧ (ARFS.Open aC7 ('/' :: "ab".data) = ARFS.Open aC7 "ab".data ∧
        ARFS.Open aC7 ('.' :: '/' :: "ab".data) = ARFS.Open aC7 "ab".data)
    ∧ ((ARFS.Open aC7 "zz".data = .error .notExist ↔
        lookupEntry aC7.fileHeaders (normalizeName "zz".data) = none) ∧
       (ARFS.Stat aC7 "zz".data = .error .notExist ↔
        lookupEntry aC7.fileHeaders (normalizeName "zz".data) = none) ∧
       ((ARFS.ReadFile aC7 "zz".data).1 = .error .notExist ↔
        lookupEntry aC7.fileHeaders (normalizeName "zz".data) = none)) := by
  have h := c8_normalized_lookup [['a', 'b']] "ab".data rfl
    (by intro hh; cases hh) (by decide)
  exact ⟨h.1, h.2.1, h.2.2.1, h.2.2.2.1 aC7, h.2.2.2.2 aC7 "zz".data⟩

/-- C5: a malformed header aborts the whole construction with
`badFileHeader`, leaving nothing queryable.  (i) `decodeHeader` fails with
`badFileHeader` exactly when the terminator is not `{0x60, 0x0A}` or one of
the five numeric fields does not parse in its stated base after trimming;
(ii) a scan step at such a header fails with `badFileHeader`; (iii) the scan
loop propagates the failure of the step at the position it has reached; and
(iv) a failed parse means `FromInterface` returns no archive at all, so no
entry is queryable — there is no partial archive. -/
theorem c5_bad_header_aborts :
    (∀ h : List Char,
      (decodeHeader h = .error .badFileHeader ↔
        ((h.drop 58).take 2 ≠ headerTerminator ∨
         parseIntB 10 (trimSpace ((h.drop 16).take 12)) = none ∨
         parseIntB 10 (trimSpace ((h.drop 28).take 6)) = none ∨
         parseIntB 10 (trimSpace ((h.drop 34).take 6)) = none ∨
         parseIntB 8 (trimSpace ((h.drop 40).take 8)) = none ∨
         parseIntB 10 (trimSpace ((h.drop 48).take 10)) = none)))
    ∧ (∀ (pr : Bool) (s : List Char) (pos : Int),
      ((s.drop pos.toNat).take 60).length = 60 →
      decodeHeader ((s.drop pos.toNat).take 60) = .error .badFileHeader →
      step pr s pos = .error .badFileHeader)
    ∧ (∀ (pr : Bool) (s : List Char) (pos : Int) (fuel : Nat) (t : Table) (e : Err),
      step pr s pos = .error e → parseLoop pr s (fuel + 1) t pos = .error e)
    ∧ (∀ (pr : Bool) (s : List Char) (e : Err),
      parse pr s = .error e → FromInterface pr s = .error e) := by
  refine ⟨?_, ?_, ?_, ?_⟩
  · intro h
    constructor
    · intro hd
      simp only [decodeHeader] at hd
      split at hd
      · rename_i hterm
        exact Or.inl hterm
      · rename_i hterm
        split at hd
        · exact absurd hd (by simp)
        · rename_i hfields
          rcases h1 : parseIntB 10 (trimSpace ((h.drop 16).take 12)) with _ | m
          · exact Or.inr (Or.inl rfl)
          rcases h2 : parseIntB 10 (trimSpace ((h.drop 28).take 6)) with _ | ow
          · exact Or.inr (Or.inr (Or.inl rfl))
          rcases h3 : parseIntB 10 (trimSpace ((h.drop 34).take 6)) with _ | g
          · exact Or.inr (Or.inr (Or.inr (Or.inl rfl)))
          rcases h4 : parseIntB 8 (trimSpace ((h.drop 40).take 8)) with _ | md
          · exact Or.inr (Or.inr (Or.inr (Or.inr (Or.inl rfl))))
          rcases h5 : parseIntB 10 (trimSpace ((h.drop 48).take 10)) with _ | sz
          · exact Or.inr (Or.inr (Or.inr (Or.inr (Or.inr rfl))))
          exact absurd (hfields m ow g md sz (by simpa using h1) (by simpa using h2)
            (by simpa using h3) (by simpa using h4) (by simpa using h5)) (by simp)
    · intro hbad
      simp only [decodeHeader]
      split
      · rfl
      · rename_i hterm
        split
        · rename_i m ow g md sz h1 h2 h3 h4 h5
          simp only [show (28 : Nat) - 16 = 12 from rfl, show (34 : Nat) - 28 = 6 from rfl,
            show (40 : Nat) - 34 = 6 from rfl, show (48 : Nat) - 40 = 8 from rfl,
            show (58 : Nat) - 48 = 10 from rfl, show (60 : Nat) - 58 = 2 from rfl]
            at h1 h2 h3 h4 h5 hterm
          rcases hbad with hb | hb | hb | hb | hb | hb <;> simp_all
        · rfl
  · intro pr s pos hlen hd
    simp only [step]
    rw [if_neg (by omega), if_neg (by omega), hd]
  · intro pr s pos fuel t e hs
    simp [parseLoop, hs]
  · intro pr s e hp
    simp [FromInterface, hp]

/-- Witness: `c5_bad_header_aborts` at a header of `archC10` with its
terminator overwritten, and at the resulting whole-archive failure. -/
theorem c5_bad_header_aborts_witness :
    (decodeHeader ((archC8.drop (8 : Int).toNat).take 60) = .error .badFileHeader ↔
      ((((archC8.drop (8 : Int).toNat).take 60).drop 58).take 2 ≠ headerTerminator ∨
       parseIntB 10 (trimSpace ((((archC8.drop (8 : Int).toNat).take 60).drop 16).take 12)) = none ∨
       parseIntB 10 (trimSpace ((((archC8.drop (8 : Int).toNat).take 60).drop 28).take 6)) = none ∨
       parseIntB 10 (trimSpace ((((archC8.drop (8 : Int).toNat).take 60).drop 34).take 6)) = none ∨
       parseIntB 8 (trimSpace ((((archC8.drop (8 : Int).toNat).take 60).drop 40).take 8)) = none ∨
       parseIntB 10 (trimSpace ((((archC8.drop (8 : Int).toNat).take 60).drop 48).take 10)) = none))
    ∧ step true archC5bad 8 = .error .badFileHeader
    ∧ parseLoop true archC5bad (4 + 1) [] 8 = .error .badFileHeader
    ∧ FromInterface true archC5bad = .error .badFileHeader := by
  obtain ⟨h1, h2, h3, h4⟩ := c5_bad_header_aborts
  refine ⟨h1 _, h2 true archC5bad 8 (by decide) (by decide), h3 true archC5bad 8 4 []
    .badFileHeader (h2 true archC5bad 8 (by decide) (by decide)), h4 true archC5bad
    .badFileHeader ?_⟩
  decide

end Goarfs


